import Mathlib

/-!
Verification development for the memos synchronization plugin
(source file src/main.ts).

Strings of the source are modelled as lists of characters (`Str`).
The JS regular-expression operations used by the source
(`replace(/[\\/:*?"<>|#]/g,'_')`, `replace(/\s+/g,' ')`, `trim()`,
`replace(/\#([^\#\s]+)\#/g,'#$1')`, `match(/\#([^\#\s]+)(?:\#|\s|$)/g)`,
`split`, `includes`) are modelled as explicit recursive functions on
character lists, following the left-to-right non-overlapping scan
semantics of JS global regex operations.  File-system and network
effects are modelled by an explicit state (`SyncState`) holding the set
of existing paths, the written documents, and an ordered effect trace;
network outcomes are supplied by an oracle.
-/

namespace MemosSync

/-- Character lists model JS strings. -/
abbrev Str := List Char

/-- Convert a Lean string literal to the character-list model. -/
def str (s : String) : Str := s.data

/-- Whitespace characters matched by the JS regex class \s
(ASCII part; the Unicode space characters behave identically). -/
def isWsChar (c : Char) : Bool :=
  c = ' ' || c = '\t' || c = '\n' || c = '\r' || c = '\x0b' || c = '\x0c'

/-- Characters replaced by the sanitizer, the JS class [\\/:*?"<>|#]
from `sanitizeFileName`. -/
def isForbiddenChar (c : Char) : Bool :=
  c = '\\' || c = '/' || c = ':' || c = '*' || c = '?' || c = '"' ||
  c = '<' || c = '>' || c = '|' || c = '#'

/-- Stage one of `sanitizeFileName`: `.replace(/[\\/:*?"<>|#]/g, '_')`. -/
def replaceForbidden (l : Str) : Str :=
  l.map fun c => if isForbiddenChar c then '_' else c

/-- Stage two of `sanitizeFileName`: `.replace(/\s+/g, ' ')`, collapsing
every maximal whitespace run to a single space. -/
def collapseWs : Str → Str
  | [] => []
  | [c] => if isWsChar c then [' '] else [c]
  | c :: d :: cs =>
    if isWsChar c then
      (if isWsChar d then collapseWs (d :: cs) else ' ' :: collapseWs (d :: cs))
    else c :: collapseWs (d :: cs)

/-- Leading-whitespace removal, the front half of `.trim()`. -/
def trimStart (l : Str) : Str := l.dropWhile isWsChar

/-- Trailing-whitespace removal, the back half of `.trim()`. -/
def trimEnd : Str → Str
  | [] => []
  | c :: cs =>
    match trimEnd cs with
    | [] => if isWsChar c then [] else [c]
    | d :: ds => c :: d :: ds

/-- JS `.trim()`: remove whitespace from both ends. -/
def trimWs (l : Str) : Str := trimEnd (trimStart l)

/-- Model of `sanitizeFileName` from src/main.ts lines 184-190:
replace forbidden characters by underscore, collapse whitespace runs to
one space, then trim. -/
def sanitizeFileName (l : Str) : Str :=
  trimWs (collapseWs (replaceForbidden l))

/-- Decimal digit characters. -/
def digitChar (d : Nat) : Char := (str "0123456789").getD d '0'

/-- Fuelled digit emitter for `natToChars`; the fuel only bounds the
recursion depth and any fuel of at least `n + 1` gives the digits of
`n` before `acc`. -/
def natToCharsAux : Nat → Nat → Str → Str
  | 0, _, acc => acc
  | fuel + 1, n, acc =>
    if n < 10 then digitChar n :: acc
    else natToCharsAux fuel (n / 10) (digitChar (n % 10) :: acc)

/-- Decimal representation of a natural number, modelling JS
string conversion of the (nonnegative integral) date components. -/
def natToChars (n : Nat) : Str := natToCharsAux (n + 1) n []

/-- Model of `String(x).padStart(2, '0')` for the date components. -/
def pad2 (n : Nat) : Str :=
  if n < 10 then '0' :: natToChars n else natToChars n

/-- Parsed JS `Date` as used by the source: `ms` models `getTime()` and
the remaining fields model the calendar components, with `month` already
shifted to 1-12 as in the expression `getMonth() + 1`. -/
structure JsDate where
  ms : Int
  year : Nat
  month : Nat
  day : Nat
  hour : Nat
  minute : Nat
  second : Nat
deriving DecidableEq

/-- Model of `formatDateTime(date, 'filename')`: `YYYY-MM-DD HH-MM`. -/
def formatDateTimeFile (d : JsDate) : Str :=
  natToChars d.year ++ '-' ::
    (pad2 d.month ++ '-' ::
      (pad2 d.day ++ ' ' ::
        (pad2 d.hour ++ '-' :: pad2 d.minute)))

/-- Model of `formatDateTime(date, 'display')`: `YYYY-MM-DD HH:MM:SS`. -/
def formatDateTimeDisplay (d : JsDate) : Str :=
  natToChars d.year ++ '-' ::
    (pad2 d.month ++ '-' ::
      (pad2 d.day ++ ' ' ::
        (pad2 d.hour ++ ':' ::
          (pad2 d.minute ++ ':' :: pad2 d.second))))

/-- Model of JS `split(sep)` on strings. -/
def splitOn (sep : Char) : Str → List Str
  | [] => [[]]
  | c :: cs =>
    if c = sep then [] :: splitOn sep cs
    else
      match splitOn sep cs with
      | [] => [[c]]
      | p :: ps => (c :: p) :: ps

/-- Model of JS `Array.join(sep)` for a one-character separator. -/
def joinWith (sep : Char) : List Str → Str
  | [] => []
  | [p] => p
  | p :: ps => p ++ sep :: joinWith sep ps

/-- Common leading-segment count, modelling the while loop of
`getRelativePath` (src/main.ts lines 245-248). -/
def commonPrefixLen : List Str → List Str → Nat
  | a :: as, b :: bs => if a = b then commonPrefixLen as bs + 1 else 0
  | _, _ => 0

/-- Model of `getRelativePath` from src/main.ts lines 236-259: drop the
source file name, count the common leading segments, then emit `..`
segments followed by the remaining target segments. -/
def getRelativePath (fromPath toPath : Str) : Str :=
  let fromParts := (splitOn '/' fromPath).dropLast
  let toParts := splitOn '/' toPath
  let i := commonPrefixLen fromParts toParts
  joinWith '/' (List.replicate (fromParts.length - i) (str "..") ++ toParts.drop i)

/-- Length of the longest common leading-segment run, written as the
specification phrases it: the largest `j` for which the first `j`
segments of both lists agree. -/
def longestCommonLen (a b : List Str) : Nat :=
  ((List.range (min a.length b.length + 1)).filter
    fun j => decide (a.take j = b.take j)).getLastD 0

/-- Relative-path computation as the specification words it: strip the
document file name, take the longest common leading segment run, then
that many `..` segments followed by the target's remaining segments. -/
def getRelativePathSpec (fromPath toPath : Str) : Str :=
  let fromParts := (splitOn '/' fromPath).dropLast
  let toParts := splitOn '/' toPath
  let i := longestCommonLen fromParts toParts
  joinWith '/' (List.replicate (fromParts.length - i) (str "..") ++ toParts.drop i)

/-- Characters that end the tag body of the regex class [^\#\s]. -/
def isTagStop (c : Char) : Bool := c = '#' || isWsChar c

/-- Fuelled scanner for `rewriteTags`; any fuel of at least the input
length produces the rewrite. -/
def rewriteTagsAux : Nat → Str → Str
  | 0, l => l
  | _ + 1, [] => []
  | fuel + 1, c :: cs =>
    if c = '#' ∧ cs.takeWhile (fun x => !isTagStop x) ≠ [] ∧
        (cs.dropWhile (fun x => !isTagStop x)).head? = some '#' then
      '#' :: (cs.takeWhile (fun x => !isTagStop x) ++
        rewriteTagsAux fuel (cs.dropWhile (fun x => !isTagStop x)).tail)
    else c :: rewriteTagsAux fuel cs

/-- Model of `content.replace(/\#([^\#\s]+)\#/g, '#$1')`
(src/main.ts line 284): a left-to-right non-overlapping scan that
rewrites each delimited `#tag#` to `#tag`. -/
def rewriteTags (l : Str) : Str := rewriteTagsAux l.length l

/-- Fuelled scanner for `extractTags`; any fuel of at least the input
length produces the match list. -/
def extractTagsAux : Nat → Str → List Str
  | 0, _ => []
  | _ + 1, [] => []
  | fuel + 1, c :: cs =>
    if c = '#' then
      if cs.takeWhile (fun x => !isTagStop x) = [] then extractTagsAux fuel cs
      else
        match cs.dropWhile (fun x => !isTagStop x) with
        | [] => ['#' :: cs.takeWhile (fun x => !isTagStop x)]
        | r :: rest2 =>
          ('#' :: (cs.takeWhile (fun x => !isTagStop x) ++ [r])) :: extractTagsAux fuel rest2
    else extractTagsAux fuel cs

/-- Model of `content.match(/\#([^\#\s]+)(?:\#|\s|$)/g)` (src/main.ts
line 325): the list of matched substrings, delimiters included. -/
def extractTags (l : Str) : List Str := extractTagsAux l.length l

/-- Remove one leading `#`, the `^\#` alternative of the cleanup regex. -/
def stripLeadHash : Str → Str
  | '#' :: r => r
  | l => l

/-- Remove one trailing `#`, the `\#$` alternative of the cleanup regex. -/
def stripTrailHash : Str → Str
  | [] => []
  | ['#'] => []
  | [c] => [c]
  | c :: d :: cs => c :: stripTrailHash (d :: cs)

/-- Model of `tag.replace(/^\#|\#$/g, '').trim()` (src/main.ts line 326). -/
def cleanTag (t : Str) : Str := trimWs (stripTrailHash (stripLeadHash t))

/-- ASCII lowering, modelling `toLowerCase` on the strings the source
applies it to. -/
def toLowerStr (l : Str) : Str := l.map Char.toLower

/-- Model of `isImageFile` (src/main.ts lines 357-361): lower-case the
name, split on dots, take the last piece, test membership of the dotted
extension in the fixed list; an empty last piece is falsy in JS and
yields false. -/
def isImageFile (filename : Str) : Bool :=
  let ext := (splitOn '.' (toLowerStr filename)).getLastD []
  if ext = [] then false
  else decide (('.' :: ext) ∈
    [str ".jpg", str ".jpeg", str ".png", str ".gif", str ".bmp", str ".webp"])

/-- Resource record of a memo, the fields the sync path uses. -/
structure ResourceRef where
  name : Str
  filename : Str
deriving DecidableEq

/-- Memo record, the fields the sync path uses; `createTime` and
`updateTime` hold the parsed `new Date(...)` values. -/
structure Memo where
  name : Str
  content : Str
  visibility : Str
  createTime : JsDate
  updateTime : JsDate
  resources : List ResourceRef
deriving DecidableEq

/-- Plugin settings used by the sync path. -/
structure Settings where
  memosApiUrl : Str
  memosAccessToken : Str
  syncDirectory : Str
  syncLimit : Nat
deriving DecidableEq

/-- File-store and network effects, recorded in order. -/
inductive Eff where
  | checkOp (p : Str)
  | mkdirOp (p : Str)
  | writeBinOp (p : Str)
  | createOp (p : Str)
  | modifyOp (p : Str)
  | netGetOp (u : Str)
deriving DecidableEq

/-- Predicate selecting network effects. -/
def Eff.isNet : Eff → Bool
  | netGetOp _ => true
  | _ => false

/-- Network requests of a trace. -/
def netOps (t : List Eff) : List Eff := t.filter Eff.isNet

/-- Abstract state of the local store: existing paths, written document
bodies, and the ordered effect trace. -/
structure SyncState where
  files : List Str
  docs : List (Str × Str)
  trace : List Eff
deriving DecidableEq

/-- Body of the document stored at a path, empty if absent. -/
def docBodyAt (st : SyncState) (p : Str) : Str :=
  ((st.docs.find? fun e => decide (e.1 = p)).map Prod.snd).getD []

/-- Model of `ensureDirectoryExists` (src/main.ts lines 363-368). -/
def ensureDirectoryExists (p : Str) (st : SyncState) : SyncState :=
  if p ∈ st.files then { st with trace := st.trace ++ [.checkOp p] }
  else
    { files := p :: st.files, docs := st.docs,
      trace := st.trace ++ [.checkOp p, .mkdirOp p] }

/-- Outcome of one resource fetch, supplied by the network oracle:
success, a non-2xx response, or a thrown transport error. -/
inductive NetResult where
  | ok
  | httpErr
  | thrown
deriving DecidableEq

/-- Model of `resource.name.split('/').pop() || resource.name`: the last
path segment of the opaque id, falling back to the whole id when that
segment is the empty (falsy) string. -/
def shortResourceId (name : Str) : Str :=
  let s := (splitOn '/' name).getLastD []
  if s = [] then name else s

/-- Deterministic local path of a resource below a target directory,
as derived in `downloadResource`. -/
def resourceLocalPath (res : ResourceRef) (targetDir : Str) : Str :=
  targetDir ++ str "/resources" ++ '/' ::
    (shortResourceId res.name ++ '_' :: sanitizeFileName res.filename)

/-- Model of `downloadResource` (src/main.ts lines 192-234): ensure the
resources directory, return the local path untouched when it already
exists, otherwise consult the network oracle; a non-2xx response or a
thrown error yields `none` (the catch clause returns null). -/
def downloadResource (o : ResourceRef → NetResult) (res : ResourceRef)
    (targetDir : Str) (st : SyncState) : Option Str × SyncState :=
  let resourceDir := targetDir ++ str "/resources"
  let st1 := ensureDirectoryExists resourceDir st
  let localPath := resourceLocalPath res targetDir
  if localPath ∈ st1.files then
    (some localPath, { st1 with trace := st1.trace ++ [.checkOp localPath] })
  else
    match o res with
    | .ok =>
      (some localPath,
        { files := localPath :: st1.files, docs := st1.docs,
          trace := st1.trace ++
            [.checkOp localPath, .netGetOp res.name, .writeBinOp localPath] })
    | .httpErr =>
      (none, { st1 with trace := st1.trace ++ [.checkOp localPath, .netGetOp res.name] })
    | .thrown =>
      (none, { st1 with trace := st1.trace ++ [.checkOp localPath, .netGetOp res.name] })

/-- Model of JS `replace(pat, '')` for a plain (non-regex) pattern:
remove the first occurrence only. -/
def removeFirstOcc (pat : Str) : Str → Str
  | [] => []
  | c :: cs =>
    if pat.isPrefixOf (c :: cs) then (c :: cs).drop pat.length
    else c :: removeFirstOcc pat cs

/-- Content preview used for the file name (src/main.ts lines 273-275):
the sanitized first 50 characters of the content when the content is
truthy, else the sanitized id with the `memos/` pattern removed. -/
def contentPreviewOf (m : Memo) : Str :=
  if m.content = [] then sanitizeFileName (removeFirstOcc (str "memos/") m.name)
  else sanitizeFileName (m.content.take 50)

/-- Derived document file name (src/main.ts lines 277-278). -/
def memoFileName (m : Memo) : Str :=
  sanitizeFileName
    (contentPreviewOf m ++ str " (" ++ formatDateTimeFile m.createTime ++ str ").md")

/-- Month directory of a memo: `{root}/{year}/{padded month}`. -/
def monthDirOf (s : Settings) (m : Memo) : Str :=
  s.syncDirectory ++ '/' ::
    (natToChars m.createTime.year ++ '/' :: pad2 m.createTime.month)

/-- Full document path of a memo. -/
def memoFilePath (s : Settings) (m : Memo) : Str :=
  monthDirOf s m ++ '/' :: memoFileName m

/-- One inline image reference: `![filename](relative)` plus newline. -/
def imageLine (r : ResourceRef) (rel : Str) : Str :=
  '!' :: '[' :: (r.filename ++ ']' :: '(' :: (rel ++ ')' :: '\n' :: []))

/-- One attachment list entry: `- [filename](relative)` plus newline. -/
def attachLine (r : ResourceRef) (rel : Str) : Str :=
  '-' :: ' ' :: '[' :: (r.filename ++ ']' :: '(' :: (rel ++ ')' :: '\n' :: []))

/-- Per-resource loop of `saveMemoToFile`: download each resource in
order, and append a line for each successful download; failures are
skipped. -/
def renderLoop (o : ResourceRef → NetResult) (filePath monthDir : Str)
    (line : ResourceRef → Str → Str) :
    List ResourceRef → SyncState → Str × SyncState
  | [], st => ([], st)
  | r :: rs, st =>
    let dl := downloadResource o r monthDir st
    let rest := renderLoop o filePath monthDir line rs dl.2
    match dl.1 with
    | some lp => (line r (getRelativePath filePath lp) ++ rest.1, rest.2)
    | none => rest

/-- Model of JS `Array.join(', ')`. -/
def joinCommaSpace : List Str → Str
  | [] => []
  | [t] => t
  | t :: ts => t ++ ',' :: ' ' :: joinCommaSpace ts

/-- Trailing metadata block of a document (src/main.ts lines 324-338). -/
def metadataBlock (m : Memo) : Str :=
  let cleanTags := (extractTags m.content).map cleanTag
  str "\n\n---\n" ++
  str "> [!note]- Memo Properties\n" ++
  (str "> - Created: " ++ formatDateTimeDisplay m.createTime ++ '\n' :: []) ++
  (str "> - Updated: " ++ formatDateTimeDisplay m.updateTime ++ '\n' :: []) ++
  str "> - Type: memo\n" ++
  (if cleanTags = [] then []
   else str "> - Tags: [" ++ joinCommaSpace cleanTags ++ str "]\n") ++
  (str "> - ID: " ++ m.name ++ '\n' :: []) ++
  (str "> - Visibility: " ++ toLowerStr m.visibility ++ '\n' :: [])

/-- Replace or insert the document stored at a path. -/
def upsertDoc (p t : Str) (docs : List (Str × Str)) : List (Str × Str) :=
  (p, t) :: docs.filter fun e => decide (e.1 ≠ p)

/-- Image resources of a memo (src/main.ts line 292). -/
def imagesOf (m : Memo) : List ResourceRef :=
  m.resources.filter fun r => isImageFile r.filename

/-- Non-image resources of a memo (src/main.ts line 293). -/
def othersOf (m : Memo) : List ResourceRef :=
  m.resources.filter fun r => !isImageFile r.filename

/-- Image section of the document: present only when the memo has
image resources (src/main.ts lines 296-307). -/
def imgSection (o : ResourceRef → NetResult) (s : Settings) (m : Memo)
    (st : SyncState) : Str × SyncState :=
  if imagesOf m = [] then ([], st)
  else
    (str "\n\n" ++
      (renderLoop o (memoFilePath s m) (monthDirOf s m) imageLine (imagesOf m) st).1,
      (renderLoop o (memoFilePath s m) (monthDirOf s m) imageLine (imagesOf m) st).2)

/-- Attachments section of the document: present only when the memo has
non-image resources (src/main.ts lines 310-321). -/
def attSection (o : ResourceRef → NetResult) (s : Settings) (m : Memo)
    (st : SyncState) : Str × SyncState :=
  if othersOf m = [] then ([], st)
  else
    (str "\n\n### Attachments\n" ++
      (renderLoop o (memoFilePath s m) (monthDirOf s m) attachLine (othersOf m) st).1,
      (renderLoop o (memoFilePath s m) (monthDirOf s m) attachLine (othersOf m) st).2)

/-- Model of `saveMemoToFile` (src/main.ts lines 261-355): derive the
paths, rewrite tags, download and link the image resources then the
other attachments, append the metadata block, and create or overwrite
the document. -/
def saveMemoToFile (o : ResourceRef → NetResult) (s : Settings) (m : Memo)
    (st : SyncState) : SyncState :=
  let yearDir := s.syncDirectory ++ '/' :: natToChars m.createTime.year
  let st1 := ensureDirectoryExists yearDir st
  let st2 := ensureDirectoryExists (monthDirOf s m) st1
  let filePath := memoFilePath s m
  let img := imgSection o s m st2
  let att := attSection o s m img.2
  let docText := rewriteTags m.content ++ img.1 ++ att.1 ++ metadataBlock m
  if filePath ∈ att.2.files then
    { files := att.2.files, docs := upsertDoc filePath docText att.2.docs,
      trace := att.2.trace ++ [.checkOp filePath, .modifyOp filePath] }
  else
    { files := filePath :: att.2.files, docs := upsertDoc filePath docText att.2.docs,
      trace := att.2.trace ++ [.checkOp filePath, .createOp filePath] }

/-- Substring occurrence test, modelling JS `includes`. -/
def substrOf (pat : Str) : Str → Bool
  | [] => pat.isEmpty
  | c :: cs => pat.isPrefixOf (c :: cs) || substrOf pat cs

/-- The API version segment required of the configured base URL. -/
def apiV1 : Str := str "/api/v1"

/-- Sort relation of the final sort in `fetchAllMemos`: the JS
comparator `b.getTime() - a.getTime()` keeps `a` before `b` exactly
when it is nonpositive. -/
def memoLe (a b : Memo) : Prop := b.createTime.ms ≤ a.createTime.ms

instance : DecidableRel memoLe := fun a b => Int.decLe b.createTime.ms a.createTime.ms

instance : IsTotal Memo memoLe := ⟨fun a b => Int.le_total b.createTime.ms a.createTime.ms⟩

instance : IsTrans Memo memoLe := ⟨fun _ _ _ h1 h2 => le_trans h2 h1⟩

/-- Page loop of `fetchAllMemos` (src/main.ts lines 92-153): the remote
serves the given page list, the last page carrying no `nextPageToken`.
Accumulate pages while the accumulated count is below the limit and a
next-page token exists; also count the page requests issued. -/
def fetchLoopN (limit : Nat) : List (List Memo) → List Memo → List Memo × Nat
  | [], acc => (acc, 0)
  | [p], acc => (acc ++ p, 1)
  | p :: q :: ps, acc =>
    if limit ≤ (acc ++ p).length then (acc ++ p, 1)
    else
      ((fetchLoopN limit (q :: ps) (acc ++ p)).1,
        (fetchLoopN limit (q :: ps) (acc ++ p)).2 + 1)

/-- Model of `fetchAllMemos` (src/main.ts lines 78-168) past its URL
validation: accumulate pages, truncate to the limit, then sort by
descending creation time.  JS `Array.sort` is a stable sort, and the
stable sort of a list under a total preorder is unique, so the stable
`List.insertionSort` models it exactly. -/
def fetchAllMemos (limit : Nat) (pages : List (List Memo)) : List Memo :=
  if limit = 0 then []
  else List.insertionSort memoLe (((fetchLoopN limit pages []).1).take limit)

/-- Configuration errors surfaced by the sync run. -/
inductive SyncError where
  | missingUrl
  | missingToken
  | badApiUrl
deriving DecidableEq

/-- Model of `syncMemos` (src/main.ts lines 370-397) together with the
URL-format validation at the top of `fetchAllMemos` (lines 87-90):
reject empty settings before any effect, ensure the root directory,
reject a base URL without the `/api/v1` segment before any network
request, then fetch, sort and save every memo in order. -/
def syncMemos (o : ResourceRef → NetResult) (s : Settings)
    (pages : List (List Memo)) (st : SyncState) :
    Except SyncError Nat × SyncState :=
  if s.memosApiUrl = [] then (.error .missingUrl, st)
  else if s.memosAccessToken = [] then (.error .missingToken, st)
  else
    let st1 := ensureDirectoryExists s.syncDirectory st
    if substrOf apiV1 s.memosApiUrl = false then (.error .badApiUrl, st1)
    else
      let memos := fetchAllMemos s.syncLimit pages
      let n := (fetchLoopN s.syncLimit pages []).2
      let st2 :=
        { st1 with trace := st1.trace ++
            List.replicate n (Eff.netGetOp (s.memosApiUrl ++ str "/memos")) }
      let st3 := memos.foldl (fun acc m => saveMemoToFile o s m acc) st2
      (.ok memos.length, st3)

/-- No leading whitespace character. -/
def noLeadWsB : Str → Bool
  | [] => true
  | c :: _ => !isWsChar c

/-- No trailing whitespace character. -/
def noTrailWsB : Str → Bool
  | [] => true
  | [c] => !isWsChar c
  | _ :: d :: cs => noTrailWsB (d :: cs)

/-- Whitespace is flat: every whitespace character is a plain space and
no two whitespace characters are adjacent. -/
def wsFlatB : Str → Bool
  | [] => true
  | [c] => !isWsChar c || c = ' '
  | c :: d :: cs => (!isWsChar c || (c = ' ' && !isWsChar d)) && wsFlatB (d :: cs)

/-- Invariant of sanitizer output: no forbidden characters, flat
whitespace, and no whitespace at either end. -/
def cleanStrB (l : Str) : Bool :=
  l.all (fun c => !isForbiddenChar c) && wsFlatB l && noLeadWsB l && noTrailWsB l

/-- Empty local store. -/
def emptyState : SyncState := ⟨[], [], []⟩

/-- Network oracle for which every resource fetch succeeds. -/
def oracleAllOk : ResourceRef → NetResult := fun _ => .ok

/-- Settings of the concrete end-to-end scenario. -/
def scnSettings : Settings :=
  ⟨str "https://host/api/v1", str "token", str "memos", 1000⟩

/-- Creation instant 2024-03-15T10:30:00 of the end-to-end scenario. -/
def scnDate : JsDate := ⟨0, 2024, 3, 15, 10, 30, 0⟩

/-- The single memo of the end-to-end scenario of the specification. -/
def scnMemo : Memo :=
  ⟨str "memos/abc", str "Meeting notes #work#", str "PUBLIC", scnDate, scnDate,
    [⟨str "resources/r1", str "photo.jpg"⟩]⟩

/-- Store state after one sync pass over the scenario page. -/
def scnRun : SyncState :=
  (syncMemos oracleAllOk scnSettings [[scnMemo]] emptyState).2

/-- Document path the code actually derives in the scenario. -/
def scnPath : Str :=
  str "memos/2024/03/Meeting notes _work_ (2024-03-15 10-30).md"

/-- Document path the specification claims for the scenario. -/
def scnClaimedPath : Str :=
  str "memos/2024/03/Meeting notes #work (2024-03-15 10-30).md"

/-- Oracle failing exactly the resource with id `resources/r1`. -/
def oracleFailR1 : ResourceRef → NetResult :=
  fun r => if r.name = str "resources/r1" then .httpErr else .ok

/-- Memo with two image attachments, used for partial-failure checks. -/
def memoTwoPics : Memo :=
  ⟨str "memos/m6", str "two pics", str "PRIVATE", scnDate, scnDate,
    [⟨str "resources/r1", str "a.png"⟩, ⟨str "resources/r2", str "b.png"⟩]⟩

/-- Store state after saving `memoTwoPics` with the first fetch failing. -/
def runTwoPics : SyncState :=
  saveMemoToFile oracleFailR1 scnSettings memoTwoPics emptyState

/-- Memo with one image and one other attachment, for the rendering
order checks. -/
def memoMixed : Memo :=
  ⟨str "memos/m8", str "mixed", str "PUBLIC", scnDate, scnDate,
    [⟨str "resources/p1", str "pic.png"⟩, ⟨str "resources/d1", str "doc.pdf"⟩]⟩

/-- Memo created at 2024-03-15T10:30:00. -/
def memoAtSec0 : Memo :=
  ⟨str "memos/x1", str "hello", str "PUBLIC", ⟨0, 2024, 3, 15, 10, 30, 0⟩,
    ⟨0, 2024, 3, 15, 10, 30, 0⟩, []⟩

/-- Memo with the same content created 45 seconds later. -/
def memoAtSec45 : Memo :=
  ⟨str "memos/x2", str "hello", str "PUBLIC", ⟨45000, 2024, 3, 15, 10, 30, 45⟩,
    ⟨45000, 2024, 3, 15, 10, 30, 45⟩, []⟩

/-- Memo with the same content created one minute later. -/
def memoAtMin31 : Memo :=
  ⟨str "memos/x3", str "hello", str "PUBLIC", ⟨60000, 2024, 3, 15, 10, 31, 0⟩,
    ⟨60000, 2024, 3, 15, 10, 31, 0⟩, []⟩

/-- Memo with creation instant 1 ms. -/
def memoMs1 : Memo :=
  ⟨str "memos/a", str "a", str "PUBLIC", ⟨1, 2024, 1, 1, 0, 0, 0⟩,
    ⟨1, 2024, 1, 1, 0, 0, 0⟩, []⟩

/-- Memo with creation instant 2 ms. -/
def memoMs2 : Memo :=
  ⟨str "memos/b", str "b", str "PUBLIC", ⟨2, 2024, 1, 1, 0, 0, 0⟩,
    ⟨2, 2024, 1, 1, 0, 0, 0⟩, []⟩

example : sanitizeFileName (str "Meeting notes #work#") = str "Meeting notes _work_" := by decide
example : rewriteTags (str "a #project# b") = str "a #project b" := by decide
example : extractTags (str "x #work# y #t z") = [str "#work#", str "#t "] := by decide
example : cleanTag (str "#work#") = str "work" := by decide
example : isImageFile (str "photo.JPG") = true := by decide
example : isImageFile (str "notes.pdf") = false := by decide
example : getRelativePath (str "root/2024/05/note.md") (str "root/2024/05/resources/r1_pic.png")
    = str "resources/r1_pic.png" := by decide
example : getRelativePath (str "root/2024/05/note.md") (str "root/2024/04/resources/r2.png")
    = str "../04/resources/r2.png" := by decide
example : formatDateTimeFile ⟨0, 2024, 3, 15, 10, 30, 0⟩ = str "2024-03-15 10-30" := by decide

/-! Sanitizer invariants. -/

theorem forbidden_not_ws {c : Char} (h : isForbiddenChar c = true) : isWsChar c = false := by
  simp only [isForbiddenChar, Bool.or_eq_true, decide_eq_true_eq] at h
  rcases h with
    (((((((((rfl | rfl) | rfl) | rfl) | rfl) | rfl) | rfl) | rfl) | rfl) | rfl)
  all_goals rfl

theorem wsFlatB_one {c : Char} : wsFlatB [c] = (!isWsChar c || c = ' ') := rfl

theorem wsFlatB_cons_cons {c d : Char} {cs : Str} :
    wsFlatB (c :: d :: cs) =
      ((!isWsChar c || (c = ' ' && !isWsChar d)) && wsFlatB (d :: cs)) := rfl

theorem noTrailWsB_cons_cons {c d : Char} {cs : Str} :
    noTrailWsB (c :: d :: cs) = noTrailWsB (d :: cs) := rfl

theorem wsFlatB_tail {c : Char} {r : Str} (h : wsFlatB (c :: r) = true) :
    wsFlatB r = true := by
  cases r with
  | nil => rfl
  | cons d ds => rw [wsFlatB_cons_cons, Bool.and_eq_true] at h; exact h.2

theorem wsFlatB_cons_nonws {c : Char} {r : Str} (hc : isWsChar c = false)
    (hr : wsFlatB r = true) : wsFlatB (c :: r) = true := by
  cases r with
  | nil => simp [wsFlatB_one, hc]
  | cons d ds => simp [wsFlatB_cons_cons, hc, hr]

theorem wsFlatB_cons_space {d : Char} {r : Str} (hd : isWsChar d = false)
    (hr : wsFlatB (d :: r) = true) : wsFlatB (' ' :: d :: r) = true := by
  simp [wsFlatB_cons_cons, hd, hr]

theorem wsFlatB_of_all_nonws : ∀ {l : Str},
    l.all (fun c => !isWsChar c) = true → wsFlatB l = true
  | [], _ => rfl
  | c :: cs, h => by
    rw [List.all_cons, Bool.and_eq_true] at h
    exact wsFlatB_cons_nonws (by simpa using h.1) (wsFlatB_of_all_nonws h.2)

theorem noLeadWsB_of_all_nonws : ∀ {l : Str},
    l.all (fun c => !isWsChar c) = true → noLeadWsB l = true
  | [], _ => rfl
  | c :: cs, h => by
    rw [List.all_cons, Bool.and_eq_true] at h
    simpa [noLeadWsB] using h.1

theorem noTrailWsB_of_all_nonws : ∀ {l : Str},
    l.all (fun c => !isWsChar c) = true → noTrailWsB l = true
  | [], _ => rfl
  | [c], h => by simpa [noTrailWsB, List.all_cons] using h
  | c :: d :: cs, h => by
    rw [List.all_cons, Bool.and_eq_true] at h
    rw [noTrailWsB_cons_cons]
    exact noTrailWsB_of_all_nonws h.2

theorem replaceForbidden_all_ok (l : Str) :
    (replaceForbidden l).all (fun c => !isForbiddenChar c) = true := by
  induction l with
  | nil => rfl
  | cons c cs ih =>
    simp only [replaceForbidden, List.map_cons, List.all_cons, Bool.and_eq_true]
    refine ⟨?_, ih⟩
    by_cases h : isForbiddenChar c = true
    · rw [if_pos h]; decide
    · have h2 : isForbiddenChar c = false := by simpa using h
      rw [if_neg h, h2]; rfl

theorem replaceForbidden_ws (c : Char) :
    isWsChar (if isForbiddenChar c then '_' else c) = isWsChar c := by
  by_cases h : isForbiddenChar c = true
  · rw [if_pos h, forbidden_not_ws h]; rfl
  · rw [if_neg h]

theorem replaceForbidden_id : ∀ {l : Str},
    l.all (fun c => !isForbiddenChar c) = true → replaceForbidden l = l
  | [], _ => rfl
  | c :: cs, h => by
    rw [List.all_cons, Bool.and_eq_true] at h
    have h1 : isForbiddenChar c = false := by simpa using h.1
    simp only [replaceForbidden, List.map_cons, h1, Bool.false_eq_true, if_false]
    exact congrArg (c :: ·) (replaceForbidden_id h.2)

theorem collapseWs_cons_nonws {d : Char} (cs : Str) (hd : isWsChar d = false) :
    collapseWs (d :: cs) = d :: collapseWs cs := by
  cases cs with
  | nil => simp [collapseWs, hd]
  | cons e es => simp [collapseWs, hd]

theorem collapseWs_flat : ∀ l : Str, wsFlatB (collapseWs l) = true
  | [] => rfl
  | [c] => by
    by_cases h : isWsChar c = true <;> simp [collapseWs, wsFlatB_one, h]
  | c :: d :: cs => by
    have ih := collapseWs_flat (d :: cs)
    by_cases hc : isWsChar c = true
    · by_cases hd : isWsChar d = true
      · simp [collapseWs, hc, hd, ih]
      · have hd2 : isWsChar d = false := by simpa using hd
        rw [show collapseWs (c :: d :: cs) = ' ' :: collapseWs (d :: cs) by
          simp [collapseWs, hc, hd2]]
        rw [collapseWs_cons_nonws cs hd2] at ih ⊢
        exact wsFlatB_cons_space hd2 ih
    · have hc2 : isWsChar c = false := by simpa using hc
      rw [show collapseWs (c :: d :: cs) = c :: collapseWs (d :: cs) by
        simp [collapseWs, hc2]]
      exact wsFlatB_cons_nonws hc2 ih

theorem collapseWs_id : ∀ {l : Str}, wsFlatB l = true → collapseWs l = l
  | [], _ => rfl
  | [c], h => by
    rw [wsFlatB_one, Bool.or_eq_true] at h
    rcases h with h | h
    · have h2 : isWsChar c = false := by simpa using h
      simp [collapseWs, h2]
    · simp only [decide_eq_true_eq] at h
      subst h
      simp [collapseWs]
  | c :: d :: cs, h => by
    rw [wsFlatB_cons_cons, Bool.and_eq_true] at h
    obtain ⟨hhead, htail⟩ := h
    rw [Bool.or_eq_true] at hhead
    rcases hhead with hc | hc
    · have hc2 : isWsChar c = false := by simpa using hc
      simp only [collapseWs, hc2, Bool.false_eq_true, if_false]
      exact congrArg (c :: ·) (collapseWs_id htail)
    · rw [Bool.and_eq_true] at hc
      obtain ⟨hsp, hd⟩ := hc
      simp only [decide_eq_true_eq] at hsp
      subst hsp
      have hd2 : isWsChar d = false := by simpa using hd
      rw [show collapseWs (' ' :: d :: cs) = ' ' :: collapseWs (d :: cs) by
        simp [collapseWs, hd2]]
      exact congrArg (' ' :: ·) (collapseWs_id htail)

theorem collapseWs_all_ok {P : Char → Bool} (hsp : P ' ' = true) :
    ∀ {l : Str}, l.all P = true → (collapseWs l).all P = true
  | [], _ => rfl
  | [c], h => by
    by_cases hc : isWsChar c = true <;> simp_all [collapseWs]
  | c :: d :: cs, h => by
    rw [List.all_cons, Bool.and_eq_true] at h
    obtain ⟨hc, hrest⟩ := h
    have ih : (collapseWs (d :: cs)).all P = true := collapseWs_all_ok hsp hrest
    by_cases h1 : isWsChar c = true
    · by_cases h2 : isWsChar d = true
      · simpa [collapseWs, h1, h2] using ih
      · simp only [collapseWs, h1, h2, Bool.false_eq_true, if_false, if_true]
        simp [List.all_cons, hsp, ih]
    · simp only [collapseWs, h1, Bool.false_eq_true, if_false]
      simp [List.all_cons, hc, ih]

theorem noLeadWsB_trimStart : ∀ l : Str, noLeadWsB (trimStart l) = true
  | [] => rfl
  | c :: cs => by
    simp only [trimStart, List.dropWhile_cons]
    by_cases h : isWsChar c = true
    · simpa [h, trimStart] using noLeadWsB_trimStart cs
    · have h2 : isWsChar c = false := by simpa using h
      simp [h2, noLeadWsB]

theorem trimStart_id {l : Str} (h : noLeadWsB l = true) : trimStart l = l := by
  cases l with
  | nil => rfl
  | cons c cs =>
    have h2 : isWsChar c = false := by simpa [noLeadWsB] using h
    simp [trimStart, List.dropWhile_cons, h2]

theorem wsFlatB_trimStart : ∀ {l : Str}, wsFlatB l = true → wsFlatB (trimStart l) = true
  | [], _ => rfl
  | c :: cs, h => by
    simp only [trimStart, List.dropWhile_cons]
    by_cases hc : isWsChar c = true
    · simpa [hc, trimStart] using wsFlatB_trimStart (wsFlatB_tail h)
    · simpa [hc] using h

theorem all_trimStart {P : Char → Bool} : ∀ {l : Str},
    l.all P = true → (trimStart l).all P = true
  | [], _ => rfl
  | c :: cs, h => by
    rw [List.all_cons, Bool.and_eq_true] at h
    simp only [trimStart, List.dropWhile_cons]
    by_cases hc : isWsChar c = true
    · simpa [hc, trimStart] using all_trimStart h.2
    · simp [hc, List.all_cons, h.1, h.2]

theorem trimEnd_head : ∀ {cs : Str} {d : Char} {ds : Str},
    trimEnd cs = d :: ds → ∃ tl, cs = d :: tl
  | [], _, _, h => by simp [trimEnd] at h
  | c :: cs, d, ds, h => by
    simp only [trimEnd] at h
    split at h
    · split at h
      · simp at h
      · injection h with h1 _
        exact ⟨cs, by rw [h1]⟩
    · injection h with h1 _
      exact ⟨cs, by rw [h1]⟩

theorem noTrailWsB_trimEnd : ∀ l : Str, noTrailWsB (trimEnd l) = true
  | [] => rfl
  | c :: cs => by
    have ih := noTrailWsB_trimEnd cs
    simp only [trimEnd]
    split
    · split
      · rfl
      · rename_i hnws
        simpa [noTrailWsB] using hnws
    · rename_i d ds heq
      rw [noTrailWsB_cons_cons, ← heq]
      exact ih

theorem trimEnd_id : ∀ {l : Str}, noTrailWsB l = true → trimEnd l = l
  | [], _ => rfl
  | [c], h => by
    have h2 : isWsChar c = false := by simpa [noTrailWsB] using h
    simp [trimEnd, h2]
  | c :: d :: cs, h => by
    rw [noTrailWsB_cons_cons] at h
    have ih := trimEnd_id h
    show (match trimEnd (d :: cs) with
      | [] => if isWsChar c = true then [] else [c]
      | e :: es => c :: e :: es) = c :: d :: cs
    rw [ih]

theorem wsFlatB_trimEnd : ∀ {l : Str}, wsFlatB l = true → wsFlatB (trimEnd l) = true
  | [], _ => rfl
  | c :: cs, h => by
    have ih := wsFlatB_trimEnd (wsFlatB_tail h)
    simp only [trimEnd]
    split
    · split
      · rfl
      · rename_i hnws
        have h2 : isWsChar c = false := by simpa using hnws
        simp [wsFlatB_one, h2]
    · rename_i d ds heq
      obtain ⟨tl, htl⟩ := trimEnd_head heq
      subst htl
      rw [wsFlatB_cons_cons, Bool.and_eq_true] at h ⊢
      exact ⟨h.1, heq ▸ ih⟩

theorem noLeadWsB_trimEnd : ∀ {l : Str}, noLeadWsB l = true → noLeadWsB (trimEnd l) = true
  | [], _ => rfl
  | c :: cs, h => by
    simp only [trimEnd]
    split
    · split
      · rfl
      · simpa [noLeadWsB] using h
    · simpa [noLeadWsB] using h

theorem all_trimEnd {P : Char → Bool} : ∀ {l : Str},
    l.all P = true → (trimEnd l).all P = true
  | [], _ => rfl
  | c :: cs, h => by
    rw [List.all_cons, Bool.and_eq_true] at h
    have ih := all_trimEnd h.2
    simp only [trimEnd]
    split
    · split
      · rfl
      · simp [List.all_cons, h.1]
    · rename_i d ds heq
      rw [List.all_cons, Bool.and_eq_true]
      exact ⟨h.1, heq ▸ ih⟩

theorem cleanStr_sanitize (l : Str) : cleanStrB (sanitizeFileName l) = true := by
  have hall : (collapseWs (replaceForbidden l)).all (fun c => !isForbiddenChar c) = true :=
    collapseWs_all_ok (by decide) (replaceForbidden_all_ok l)
  have hflat : wsFlatB (collapseWs (replaceForbidden l)) = true := collapseWs_flat _
  simp only [cleanStrB, sanitizeFileName, trimWs, Bool.and_eq_true]
  refine ⟨⟨⟨?_, ?_⟩, ?_⟩, ?_⟩
  · exact all_trimEnd (all_trimStart hall)
  · exact wsFlatB_trimEnd (wsFlatB_trimStart hflat)
  · exact noLeadWsB_trimEnd (noLeadWsB_trimStart _)
  · exact noTrailWsB_trimEnd _

theorem sanitize_of_clean {l : Str} (h : cleanStrB l = true) : sanitizeFileName l = l := by
  simp only [cleanStrB, Bool.and_eq_true] at h
  obtain ⟨⟨⟨hall, hflat⟩, hlead⟩, htrail⟩ := h
  simp only [sanitizeFileName, trimWs]
  rw [replaceForbidden_id hall, collapseWs_id hflat, trimStart_id hlead, trimEnd_id htrail]

/-! Appending well-formed pieces. -/

theorem wsFlatB_append_of_noTrail : ∀ {a : Str}, wsFlatB a = true → noTrailWsB a = true →
    ∀ {b : Str}, wsFlatB b = true → wsFlatB (a ++ b) = true
  | [], _, _, _, hb => hb
  | [c], ha, hta, b, hb => by
    have h2 : isWsChar c = false := by simpa [noTrailWsB] using hta
    exact wsFlatB_cons_nonws h2 hb
  | c :: d :: cs, ha, hta, b, hb => by
    rw [noTrailWsB_cons_cons] at hta
    rw [wsFlatB_cons_cons, Bool.and_eq_true] at ha
    have ih := wsFlatB_append_of_noTrail ha.2 hta hb
    rw [List.cons_append, List.cons_append]
    rw [wsFlatB_cons_cons, Bool.and_eq_true]
    exact ⟨ha.1, by rw [← List.cons_append]; exact ih⟩

theorem noTrailWsB_cons_of {c : Char} {l : Str} (hne : l ≠ [])
    (h : noTrailWsB l = true) : noTrailWsB (c :: l) = true := by
  cases l with
  | nil => exact absurd rfl hne
  | cons d ds => rw [noTrailWsB_cons_cons]; exact h

theorem noTrailWsB_append : ∀ (a : Str) {b : Str}, b ≠ [] →
    noTrailWsB b = true → noTrailWsB (a ++ b) = true
  | [], _, _, hb => hb
  | c :: as, b, hbne, hb => by
    have ih := noTrailWsB_append as hbne hb
    rw [List.cons_append]
    refine noTrailWsB_cons_of ?_ ih
    intro hab
    exact hbne (List.append_eq_nil.mp hab).2

theorem noLeadWsB_append {a : Str} (b : Str) (hane : a ≠ [])
    (ha : noLeadWsB a = true) : noLeadWsB (a ++ b) = true := by
  cases a with
  | nil => exact absurd rfl hane
  | cons c cs => simpa [noLeadWsB] using ha

theorem wsFlatB_space_cons {b : Str} (hlead : noLeadWsB b = true) (hne : b ≠ [])
    (hb : wsFlatB b = true) : wsFlatB (' ' :: b) = true := by
  cases b with
  | nil => exact absurd rfl hne
  | cons e es =>
    have h2 : isWsChar e = false := by simpa [noLeadWsB] using hlead
    exact wsFlatB_cons_space h2 hb

/-! Digit strings and the date formats. -/

theorem digitChar_mem (d : Nat) : digitChar d ∈ str "0123456789" := by
  unfold digitChar
  rcases Nat.lt_or_ge d 10 with h | h
  · interval_cases d <;> decide
  · rw [List.getD_eq_default]
    · decide
    · simpa [str] using h

theorem digit_not_ws {c : Char} (h : c ∈ str "0123456789") : isWsChar c = false := by
  rw [show str "0123456789" = ['0', '1', '2', '3', '4', '5', '6', '7', '8', '9'] from rfl] at h
  simp only [List.mem_cons, List.not_mem_nil, or_false] at h
  rcases h with rfl | rfl | rfl | rfl | rfl | rfl | rfl | rfl | rfl | rfl <;> decide

theorem digit_not_forbidden {c : Char} (h : c ∈ str "0123456789") :
    isForbiddenChar c = false := by
  rw [show str "0123456789" = ['0', '1', '2', '3', '4', '5', '6', '7', '8', '9'] from rfl] at h
  simp only [List.mem_cons, List.not_mem_nil, or_false] at h
  rcases h with rfl | rfl | rfl | rfl | rfl | rfl | rfl | rfl | rfl | rfl <;> decide

theorem natToCharsAux_mem : ∀ (fuel n : Nat) (acc : Str),
    (∀ c ∈ acc, c ∈ str "0123456789") →
    ∀ c ∈ natToCharsAux fuel n acc, c ∈ str "0123456789"
  | 0, _, _, hacc => hacc
  | fuel + 1, n, acc, hacc => by
    simp only [natToCharsAux]
    split
    · intro c hc
      rcases List.mem_cons.mp hc with rfl | hc
      · exact digitChar_mem n
      · exact hacc c hc
    · refine natToCharsAux_mem fuel (n / 10) _ ?_
      intro c hc
      rcases List.mem_cons.mp hc with rfl | hc
      · exact digitChar_mem _
      · exact hacc c hc

theorem natToChars_mem (n : Nat) : ∀ c ∈ natToChars n, c ∈ str "0123456789" :=
  natToCharsAux_mem (n + 1) n [] (by intro c hc; cases hc)

theorem natToCharsAux_ne_nil : ∀ (fuel n : Nat) {acc : Str}, acc ≠ [] →
    natToCharsAux fuel n acc ≠ []
  | 0, _, _, h => h
  | fuel + 1, n, acc, h => by
    simp only [natToCharsAux]
    split
    · simp
    · exact natToCharsAux_ne_nil fuel _ (by simp)

theorem natToChars_ne_nil (n : Nat) : natToChars n ≠ [] := by
  simp only [natToChars, natToCharsAux]
  split
  · simp
  · exact natToCharsAux_ne_nil n _ (by simp)

theorem pad2_mem (n : Nat) : ∀ c ∈ pad2 n, c ∈ str "0123456789" := by
  unfold pad2
  split
  · intro c hc
    rcases List.mem_cons.mp hc with rfl | hc
    · decide
    · exact natToChars_mem n c hc
  · exact natToChars_mem n

theorem pad2_ne_nil (n : Nat) : pad2 n ≠ [] := by
  unfold pad2
  split
  · simp
  · exact natToChars_ne_nil n

theorem all_nonws_of_digits {l : Str} (h : ∀ c ∈ l, c ∈ str "0123456789") :
    l.all (fun c => !isWsChar c) = true := by
  rw [List.all_eq_true]
  intro c hc
  simpa using digit_not_ws (h c hc)

theorem all_nonforbidden_of_digits {l : Str} (h : ∀ c ∈ l, c ∈ str "0123456789") :
    l.all (fun c => !isForbiddenChar c) = true := by
  rw [List.all_eq_true]
  intro c hc
  simpa using digit_not_forbidden (h c hc)

theorem cleanStrB_of_all_nonws {l : Str}
    (hw : l.all (fun c => !isWsChar c) = true)
    (hf : l.all (fun c => !isForbiddenChar c) = true) : cleanStrB l = true := by
  simp only [cleanStrB, Bool.and_eq_true]
  exact ⟨⟨⟨hf, wsFlatB_of_all_nonws hw⟩, noLeadWsB_of_all_nonws hw⟩,
    noTrailWsB_of_all_nonws hw⟩

theorem ne_nil_append {a : Str} (b : Str) (ha : a ≠ []) : a ++ b ≠ [] := by
  cases a with
  | nil => exact absurd rfl ha
  | cons c cs => simp

theorem all_append_cons {P : Char → Bool} {a b : Str} {c : Char}
    (ha : a.all P = true) (hc : P c = true) (hb : b.all P = true) :
    (a ++ c :: b).all P = true := by
  simp [List.all_append, List.all_cons, ha, hc, hb]

theorem cleanStr_fmtFile (d : JsDate) : cleanStrB (formatDateTimeFile d) = true := by
  have hyd := natToChars_mem d.year
  have hmo := pad2_mem d.month
  have hdy := pad2_mem d.day
  have hhr := pad2_mem d.hour
  have hmi := pad2_mem d.minute
  have w3 : (pad2 d.hour ++ '-' :: pad2 d.minute).all (fun c => !isWsChar c) = true :=
    all_append_cons (all_nonws_of_digits hhr) (by decide) (all_nonws_of_digits hmi)
  have f3 : (pad2 d.hour ++ '-' :: pad2 d.minute).all (fun c => !isForbiddenChar c) = true :=
    all_append_cons (all_nonforbidden_of_digits hhr) (by decide)
      (all_nonforbidden_of_digits hmi)
  have h3ne : pad2 d.hour ++ '-' :: pad2 d.minute ≠ [] :=
    ne_nil_append _ (pad2_ne_nil d.hour)
  have flat2 : wsFlatB (pad2 d.day ++ ' ' ::
      (pad2 d.hour ++ '-' :: pad2 d.minute)) = true := by
    refine wsFlatB_append_of_noTrail (wsFlatB_of_all_nonws (all_nonws_of_digits hdy))
      (noTrailWsB_of_all_nonws (all_nonws_of_digits hdy)) ?_
    exact wsFlatB_space_cons (noLeadWsB_of_all_nonws w3) h3ne (wsFlatB_of_all_nonws w3)
  have f2 : (pad2 d.day ++ ' ' :: (pad2 d.hour ++ '-' :: pad2 d.minute)).all
      (fun c => !isForbiddenChar c) = true :=
    all_append_cons (all_nonforbidden_of_digits hdy) (by decide) f3
  have trail2 : noTrailWsB (pad2 d.day ++ ' ' ::
      (pad2 d.hour ++ '-' :: pad2 d.minute)) = true := by
    refine noTrailWsB_append _ (by simp) ?_
    exact noTrailWsB_cons_of h3ne (noTrailWsB_of_all_nonws w3)
  have h2ne : pad2 d.day ++ ' ' :: (pad2 d.hour ++ '-' :: pad2 d.minute) ≠ [] :=
    ne_nil_append _ (pad2_ne_nil d.day)
  have flat1 : wsFlatB (pad2 d.month ++ '-' :: (pad2 d.day ++ ' ' ::
      (pad2 d.hour ++ '-' :: pad2 d.minute))) = true := by
    refine wsFlatB_append_of_noTrail (wsFlatB_of_all_nonws (all_nonws_of_digits hmo))
      (noTrailWsB_of_all_nonws (all_nonws_of_digits hmo)) ?_
    exact wsFlatB_cons_nonws (by decide) flat2
  have f1 : (pad2 d.month ++ '-' :: (pad2 d.day ++ ' ' ::
      (pad2 d.hour ++ '-' :: pad2 d.minute))).all (fun c => !isForbiddenChar c) = true :=
    all_append_cons (all_nonforbidden_of_digits hmo) (by decide) f2
  have trail1 : noTrailWsB (pad2 d.month ++ '-' :: (pad2 d.day ++ ' ' ::
      (pad2 d.hour ++ '-' :: pad2 d.minute))) = true := by
    refine noTrailWsB_append _ (by simp) ?_
    exact noTrailWsB_cons_of h2ne trail2
  have h1ne : pad2 d.month ++ '-' :: (pad2 d.day ++ ' ' ::
      (pad2 d.hour ++ '-' :: pad2 d.minute)) ≠ [] :=
    ne_nil_append _ (pad2_ne_nil d.month)
  simp only [cleanStrB, formatDateTimeFile, Bool.and_eq_true]
  refine ⟨⟨⟨?_, ?_⟩, ?_⟩, ?_⟩
  · exact all_append_cons (all_nonforbidden_of_digits hyd) (by decide) f1
  · refine wsFlatB_append_of_noTrail (wsFlatB_of_all_nonws (all_nonws_of_digits hyd))
      (noTrailWsB_of_all_nonws (all_nonws_of_digits hyd)) ?_
    exact wsFlatB_cons_nonws (by decide) flat1
  · exact noLeadWsB_append _ (natToChars_ne_nil d.year)
      (noLeadWsB_of_all_nonws (all_nonws_of_digits hyd))
  · refine noTrailWsB_append _ (by simp) ?_
    exact noTrailWsB_cons_of h1ne trail1

theorem fmtFile_ne_nil (d : JsDate) : formatDateTimeFile d ≠ [] := by
  unfold formatDateTimeFile
  exact ne_nil_append _ (natToChars_ne_nil d.year)

/-! Passing an already-sanitized prefix and a clean timestamp through
the final sanitization of the file name. -/

theorem sanitize_wrap {p t : Str} (hp : cleanStrB p = true) (ht : cleanStrB t = true)
    (htne : t ≠ []) :
    sanitizeFileName (p ++ ' ' :: '(' :: (t ++ str ").md")) =
      (if p = [] then [] else p ++ [' ']) ++ '(' :: (t ++ str ").md") := by
  simp only [cleanStrB, Bool.and_eq_true] at hp ht
  obtain ⟨⟨⟨pall, pflat⟩, plead⟩, ptrail⟩ := hp
  obtain ⟨⟨⟨tall, tflat⟩, tlead⟩, ttrail⟩ := ht
  have hRall : (t ++ str ").md").all (fun c => !isForbiddenChar c) = true := by
    rw [List.all_append]
    simp only [tall, Bool.true_and]
    decide
  have hRflat : wsFlatB (t ++ str ").md") = true :=
    wsFlatB_append_of_noTrail tflat ttrail (by decide)
  have hRlead : noLeadWsB (t ++ str ").md") = true := noLeadWsB_append _ htne tlead
  have hRtrail : noTrailWsB (t ++ str ").md") = true :=
    noTrailWsB_append _ (by decide) (by decide)
  have hRne : t ++ str ").md" ≠ [] := ne_nil_append _ htne
  have hTail_flat : wsFlatB (' ' :: '(' :: (t ++ str ").md")) = true :=
    wsFlatB_cons_space (by decide) (wsFlatB_cons_nonws (by decide) hRflat)
  have hTail_trail : noTrailWsB (' ' :: '(' :: (t ++ str ").md")) = true := by
    refine noTrailWsB_cons_of (by simp) ?_
    exact noTrailWsB_cons_of hRne hRtrail
  by_cases hp0 : p = []
  · subst hp0
    rw [if_pos rfl]
    simp only [List.nil_append]
    have hall : (' ' :: '(' :: (t ++ str ").md")).all (fun c => !isForbiddenChar c) = true := by
      simp only [List.all_cons, Bool.and_eq_true]
      exact ⟨by decide, by decide, hRall⟩
    simp only [sanitizeFileName, trimWs]
    rw [replaceForbidden_id hall, collapseWs_id hTail_flat]
    rw [show trimStart (' ' :: '(' :: (t ++ str ").md")) = '(' :: (t ++ str ").md") by
      simp only [trimStart, List.dropWhile_cons]
      rw [if_pos (by decide), if_neg (by decide)]]
    exact trimEnd_id (noTrailWsB_cons_of hRne hRtrail)
  · rw [if_neg hp0]
    have hclean : cleanStrB (p ++ ' ' :: '(' :: (t ++ str ").md")) = true := by
      simp only [cleanStrB, Bool.and_eq_true]
      refine ⟨⟨⟨?_, ?_⟩, ?_⟩, ?_⟩
      · rw [List.all_append]
        simp only [pall, Bool.true_and, List.all_cons, Bool.and_eq_true]
        exact ⟨by decide, by decide, hRall⟩
      · exact wsFlatB_append_of_noTrail pflat ptrail hTail_flat
      · exact noLeadWsB_append _ hp0 plead
      · exact noTrailWsB_append _ (by simp) hTail_trail
    rw [sanitize_of_clean hclean]
    simp [List.append_assoc]

theorem cleanStr_contentPreview (m : Memo) : cleanStrB (contentPreviewOf m) = true := by
  unfold contentPreviewOf
  split
  · exact cleanStr_sanitize _
  · exact cleanStr_sanitize _

theorem memoFileName_eq (m : Memo) :
    memoFileName m =
      (if contentPreviewOf m = [] then [] else contentPreviewOf m ++ [' ']) ++
        '(' :: (formatDateTimeFile m.createTime ++ str ").md") := by
  have h1 : contentPreviewOf m ++ str " (" ++ formatDateTimeFile m.createTime ++ str ").md"
      = contentPreviewOf m ++ ' ' :: '(' ::
          (formatDateTimeFile m.createTime ++ str ").md") := by
    simp only [List.append_assoc]
    rfl
  rw [memoFileName, h1]
  exact sanitize_wrap (cleanStr_contentPreview m) (cleanStr_fmtFile _)
    (fmtFile_ne_nil _)

/-! Tag rewriting. -/

theorem rewriteTagsAux_nil : ∀ f : Nat, rewriteTagsAux f [] = []
  | 0 => rfl
  | _ + 1 => rfl

theorem rewriteTagsAux_irrel : ∀ (n f g : Nat) (l : Str), l.length ≤ n →
    l.length ≤ f → l.length ≤ g → rewriteTagsAux f l = rewriteTagsAux g l := by
  intro n
  induction n with
  | zero =>
    intro f g l hn _ _
    rw [List.length_eq_zero.mp (Nat.le_zero.mp hn)]
    rw [rewriteTagsAux_nil, rewriteTagsAux_nil]
  | succ n ih =>
    intro f g l hn hf hg
    cases l with
    | nil => rw [rewriteTagsAux_nil, rewriteTagsAux_nil]
    | cons c cs =>
      cases f with
      | zero => simp at hf
      | succ f =>
        cases g with
        | zero => simp at hg
        | succ g =>
          simp only [List.length_cons, Nat.succ_le_succ_iff] at hn hf hg
          simp only [rewriteTagsAux]
          have hdlen : (cs.dropWhile (fun x => !isTagStop x)).tail.length ≤ cs.length := by
            have h1 : (cs.dropWhile (fun x => !isTagStop x)).length ≤ cs.length :=
              (List.dropWhile_sublist _).length_le
            have h2 := List.length_tail (cs.dropWhile (fun x => !isTagStop x))
            omega
          split
          · rw [ih f g _ (le_trans hdlen hn) (le_trans hdlen hf) (le_trans hdlen hg)]
          · rw [ih f g cs hn hf hg]

theorem rewriteTagsAux_eq (f : Nat) (l : Str) (h : l.length ≤ f) :
    rewriteTagsAux f l = rewriteTags l :=
  rewriteTagsAux_irrel f f l.length l h h le_rfl

theorem rewriteTags_cons_plain {c : Char} {cs : Str} (hc : c ≠ '#') :
    rewriteTags (c :: cs) = c :: rewriteTags cs := by
  simp only [rewriteTags, List.length_cons, rewriteTagsAux]
  rw [if_neg]
  intro h
  exact hc h.1

theorem takeWhile_tag {t : Str} (s : Str) (ht : ∀ c ∈ t, isTagStop c = false) :
    (t ++ '#' :: s).takeWhile (fun x => !isTagStop x) = t := by
  induction t with
  | nil =>
    rw [List.nil_append, List.takeWhile_cons]
    rw [if_neg (by decide)]
  | cons c t ih =>
    rw [List.cons_append, List.takeWhile_cons]
    rw [if_pos (by simpa using ht c (List.mem_cons_self c t))]
    rw [ih fun c hc => ht c (List.mem_cons_of_mem _ hc)]

theorem dropWhile_tag {t : Str} (s : Str) (ht : ∀ c ∈ t, isTagStop c = false) :
    (t ++ '#' :: s).dropWhile (fun x => !isTagStop x) = '#' :: s := by
  induction t with
  | nil =>
    rw [List.nil_append, List.dropWhile_cons]
    rw [if_neg (by decide)]
  | cons c t ih =>
    rw [List.cons_append, List.dropWhile_cons]
    rw [if_pos (by simpa using ht c (List.mem_cons_self c t))]
    exact ih fun c hc => ht c (List.mem_cons_of_mem _ hc)

theorem rewriteTags_match {t : Str} (s : Str) (ht : ∀ c ∈ t, isTagStop c = false)
    (htne : t ≠ []) :
    rewriteTags ('#' :: (t ++ '#' :: s)) = '#' :: (t ++ rewriteTags s) := by
  simp only [rewriteTags, List.length_cons, rewriteTagsAux]
  rw [if_pos]
  · rw [takeWhile_tag s ht, dropWhile_tag s ht]
    simp only [List.tail_cons]
    rw [rewriteTagsAux_eq _ _ (by simp [List.length_append]; omega)]
    rfl
  · refine ⟨trivial, ?_, ?_⟩
    · rw [takeWhile_tag s ht]; exact htne
    · rw [dropWhile_tag s ht]; rfl

/-! The leading-segment count of the path loop is the longest common
leading run. -/

theorem commonPrefixLen_le : ∀ a b : List Str,
    commonPrefixLen a b ≤ min a.length b.length
  | [], _ => by simp [commonPrefixLen]
  | _ :: _, [] => by simp [commonPrefixLen]
  | a :: as, b :: bs => by
    by_cases h : a = b
    · have ih := commonPrefixLen_le as bs
      simp only [commonPrefixLen, if_pos h, List.length_cons]
      omega
    · simp [commonPrefixLen, if_neg h]

theorem commonPrefixLen_take : ∀ a b : List Str,
    a.take (commonPrefixLen a b) = b.take (commonPrefixLen a b)
  | [], b => by simp [commonPrefixLen]
  | _ :: _, [] => by simp [commonPrefixLen]
  | a :: as, b :: bs => by
    by_cases h : a = b
    · simp only [commonPrefixLen, if_pos h, List.take_succ_cons]
      rw [h, commonPrefixLen_take as bs]
    · simp [commonPrefixLen, if_neg h]

theorem le_commonPrefixLen : ∀ (a b : List Str) (j : Nat),
    j ≤ min a.length b.length → a.take j = b.take j → j ≤ commonPrefixLen a b
  | _, _, 0, _, _ => Nat.zero_le _
  | [], _, j + 1, hj, _ => by simp at hj
  | _ :: _, [], j + 1, hj, _ => by simp at hj
  | a :: as, b :: bs, j + 1, hj, heq => by
    simp only [List.take_succ_cons] at heq
    injection heq with h1 h2
    simp only [List.length_cons] at hj
    have ih := le_commonPrefixLen as bs j (by omega) h2
    simp only [commonPrefixLen, if_pos h1]
    omega

theorem filter_range_eq (k : Nat) (p : Nat → Bool) : ∀ n : Nat, k < n →
    (∀ j, j < n → (p j = true ↔ j ≤ k)) →
    (List.range n).filter p = List.range (k + 1) := by
  intro n
  induction n with
  | zero => omega
  | succ n ih =>
    intro hk hp
    rw [List.range_succ, List.filter_append]
    rcases Nat.lt_or_ge k n with h | h
    · rw [ih h fun j hj => hp j (by omega)]
      have hn : p n = false := by
        by_cases hpn : p n = true
        · exact absurd ((hp n (Nat.lt_succ_self n)).mp hpn) (by omega)
        · simpa using hpn
      simp [hn]
    · have hk2 : k = n := by omega
      subst hk2
      have h1 : (List.range k).filter p = List.range k :=
        List.filter_eq_self.mpr fun j hj =>
          (hp j (by have := List.mem_range.mp hj; omega)).mpr
            (le_of_lt (List.mem_range.mp hj))
      have h2 : [k].filter p = [k] := by
        have := (hp k (Nat.lt_succ_self k)).mpr le_rfl
        simp [this]
      rw [h1, h2, ← List.range_succ]

theorem longestCommonLen_eq (a b : List Str) :
    longestCommonLen a b = commonPrefixLen a b := by
  unfold longestCommonLen
  rw [filter_range_eq (commonPrefixLen a b) _ (min a.length b.length + 1)
    (Nat.lt_succ_of_le (commonPrefixLen_le a b)) ?_]
  · rw [List.range_succ]
    exact List.getLastD_concat _ _ _
  · intro j hj
    constructor
    · intro hp
      exact le_commonPrefixLen a b j (by omega) (of_decide_eq_true hp)
    · intro hj2
      apply decide_eq_true
      calc a.take j = (a.take (commonPrefixLen a b)).take j := by
            rw [List.take_take, Nat.min_eq_left hj2]
        _ = (b.take (commonPrefixLen a b)).take j := by rw [commonPrefixLen_take]
        _ = b.take j := by rw [List.take_take, Nat.min_eq_left hj2]

/-! Pagination loop. -/

theorem fetchLoopN_prefix (limit : Nat) : ∀ (ps : List (List Memo)) (acc : List Memo),
    ∃ l2, acc ++ ps.flatten = (fetchLoopN limit ps acc).1 ++ l2
  | [], acc => ⟨[], by simp [fetchLoopN]⟩
  | [p], acc => ⟨[], by simp [fetchLoopN]⟩
  | p :: q :: ps, acc => by
    simp only [fetchLoopN]
    split
    · exact ⟨(q :: ps).flatten, by simp [List.append_assoc]⟩
    · obtain ⟨l2, h⟩ := fetchLoopN_prefix limit (q :: ps) (acc ++ p)
      exact ⟨l2, by simpa [List.append_assoc] using h⟩

theorem fetchLoopN_min_le (limit : Nat) : ∀ (ps : List (List Memo)) (acc : List Memo),
    min (acc ++ ps.flatten).length limit ≤ (fetchLoopN limit ps acc).1.length
  | [], acc => by simp [fetchLoopN]
  | [p], acc => by simp [fetchLoopN]
  | p :: q :: ps, acc => by
    simp only [fetchLoopN]
    split
    · rename_i h
      simp only [List.length_append]
      simp only [List.length_append] at h
      omega
    · have ih := fetchLoopN_min_le limit (q :: ps) (acc ++ p)
      simp only [List.flatten_cons, List.length_append, List.length_flatten,
        List.map_cons, List.sum_cons] at ih ⊢
      omega

theorem fetchLoopN_all (limit : Nat) : ∀ (ps : List (List Memo)) (acc : List Memo),
    (acc ++ ps.flatten).length ≤ limit → (fetchLoopN limit ps acc).1 = acc ++ ps.flatten
  | [], acc, _ => by simp [fetchLoopN]
  | [p], acc, _ => by simp [fetchLoopN]
  | p :: q :: ps, acc, h => by
    simp only [fetchLoopN]
    split
    · rename_i hstop
      simp only [List.flatten_cons, List.length_append, List.length_flatten,
        List.map_cons, List.sum_cons] at h
      simp only [List.length_append] at hstop
      have hrest : (q :: ps).flatten.length = 0 := by
        simp only [List.length_flatten, List.map_cons, List.sum_cons]
        omega
      have h3 : (q :: ps).flatten = [] := List.eq_nil_of_length_eq_zero hrest
      simp [List.flatten_cons, h3]
    · have ih := fetchLoopN_all limit (q :: ps) (acc ++ p) (by
        simpa [List.append_assoc] using h)
      simp only [List.flatten_cons]
      rw [ih]
      simp [List.append_assoc]

theorem pairwise_perm_eq {α : Type} {r : α → α → Prop}
    (hasym : ∀ a b, r a b → r b a → False) :
    ∀ {l₁ l₂ : List α}, l₁.Perm l₂ → l₁.Pairwise r → l₂.Pairwise r → l₁ = l₂
  | [], l₂, hp, _, _ => hp.nil_eq
  | a :: t, [], hp, _, _ => absurd (List.perm_nil.mp hp) (by simp)
  | a :: t, b :: t₂, hp, h₁, h₂ => by
    have hab : a = b := by
      by_contra hne
      have ha2 : a ∈ t₂ := by
        have := hp.mem_iff.mp (List.mem_cons_self a t)
        rcases List.mem_cons.mp this with h | h
        · exact absurd h hne
        · exact h
      have hb2 : b ∈ t := by
        have := hp.symm.mem_iff.mp (List.mem_cons_self b t₂)
        rcases List.mem_cons.mp this with h | h
        · exact absurd h.symm hne
        · exact h
      have r1 : r b a := (List.pairwise_cons.mp h₂).1 a ha2
      have r2 : r a b := (List.pairwise_cons.mp h₁).1 b hb2
      exact hasym a b r2 r1
    subst hab
    have := pairwise_perm_eq hasym hp.cons_inv
      (List.pairwise_cons.mp h₁).2 (List.pairwise_cons.mp h₂).2
    rw [this]

/-! Store and network effects. -/

theorem netOps_append (a b : List Eff) : netOps (a ++ b) = netOps a ++ netOps b :=
  List.filter_append a b

theorem ensureDir_netOps (p : Str) (st : SyncState) :
    netOps (ensureDirectoryExists p st).trace = netOps st.trace := by
  unfold ensureDirectoryExists
  split <;> simp [netOps_append, netOps, Eff.isNet]

theorem ensureDir_files_mem {q : Str} (p : Str) (st : SyncState) (h : q ∈ st.files) :
    q ∈ (ensureDirectoryExists p st).files := by
  unfold ensureDirectoryExists
  split
  · exact h
  · exact List.mem_cons_of_mem _ h

theorem mem_ensureDir_files {q p : Str} {st : SyncState}
    (h : q ∈ (ensureDirectoryExists p st).files) : q = p ∨ q ∈ st.files := by
  unfold ensureDirectoryExists at h
  split at h
  · exact Or.inr h
  · exact List.mem_cons.mp h

theorem resourceLocalPath_ne_dir (res : ResourceRef) (dir : Str) :
    resourceLocalPath res dir ≠ dir ++ str "/resources" := by
  intro h
  have := congrArg List.length h
  simp [resourceLocalPath, List.length_append] at this

theorem downloadResource_exists {o : ResourceRef → NetResult} {res : ResourceRef}
    {dir : Str} {st : SyncState} (h : resourceLocalPath res dir ∈ st.files) :
    (downloadResource o res dir st).1 = some (resourceLocalPath res dir) ∧
    netOps (downloadResource o res dir st).2.trace = netOps st.trace := by
  have hmem : resourceLocalPath res dir ∈
      (ensureDirectoryExists (dir ++ str "/resources") st).files :=
    ensureDir_files_mem _ _ h
  simp only [downloadResource]
  rw [if_pos hmem]
  refine ⟨rfl, ?_⟩
  rw [netOps_append, ensureDir_netOps]
  simp [netOps, Eff.isNet]

theorem downloadResource_fst_ok {o : ResourceRef → NetResult} {res : ResourceRef}
    {dir : Str} {st : SyncState} (h : o res = .ok) :
    (downloadResource o res dir st).1 = some (resourceLocalPath res dir) := by
  simp only [downloadResource]
  by_cases hmem : resourceLocalPath res dir ∈
      (ensureDirectoryExists (dir ++ str "/resources") st).files
  · rw [if_pos hmem]
  · rw [if_neg hmem, h]

theorem downloadResource_fst_fail {o : ResourceRef → NetResult} {res : ResourceRef}
    {dir : Str} {st : SyncState} (h1 : o res ≠ .ok)
    (h2 : resourceLocalPath res dir ∉ st.files) :
    (downloadResource o res dir st).1 = none := by
  simp only [downloadResource]
  have hmem : resourceLocalPath res dir ∉
      (ensureDirectoryExists (dir ++ str "/resources") st).files := by
    intro hm
    rcases mem_ensureDir_files hm with h | h
    · exact resourceLocalPath_ne_dir res dir h
    · exact h2 h
  rw [if_neg hmem]
  rcases ho : o res with _ | _ | _
  · exact absurd ho h1
  · rfl
  · rfl

theorem downloadResource_some_mem {o : ResourceRef → NetResult} {res : ResourceRef}
    {dir : Str} {st : SyncState} {p : Str}
    (h : (downloadResource o res dir st).1 = some p) :
    p = resourceLocalPath res dir ∧ p ∈ (downloadResource o res dir st).2.files := by
  simp only [downloadResource] at h ⊢
  by_cases hmem : resourceLocalPath res dir ∈
      (ensureDirectoryExists (dir ++ str "/resources") st).files
  · rw [if_pos hmem] at h ⊢
    injection h with h1
    subst h1
    exact ⟨rfl, hmem⟩
  · rw [if_neg hmem] at h ⊢
    rcases ho : o res with _ | _ | _
    · rw [ho] at h
      injection h with h1
      subst h1
      exact ⟨rfl, List.mem_cons_self _ _⟩
    · rw [ho] at h
      exact absurd h (by simp)
    · rw [ho] at h
      exact absurd h (by simp)

theorem downloadResource_second {o o2 : ResourceRef → NetResult} {res : ResourceRef}
    {dir : Str} {st : SyncState} {p : Str}
    (h : (downloadResource o res dir st).1 = some p) :
    netOps (downloadResource o2 res dir (downloadResource o res dir st).2).2.trace =
      netOps (downloadResource o res dir st).2.trace := by
  obtain ⟨hp, hmem⟩ := downloadResource_some_mem h
  subst hp
  exact (downloadResource_exists hmem).2

theorem find_upsertDoc (p t : Str) (docs : List (Str × Str)) :
    (upsertDoc p t docs).find? (fun e => decide (e.1 = p)) = some (p, t) := by
  simp [upsertDoc, List.find?]

theorem docBodyAt_upsert (p t : Str) (files : List Str) (docs : List (Str × Str))
    (tr : List Eff) :
    docBodyAt ⟨files, upsertDoc p t docs, tr⟩ p = t := by
  simp [docBodyAt, find_upsertDoc]

theorem renderLoop_ok (o : ResourceRef → NetResult) (fp dir : Str)
    (line : ResourceRef → Str → Str) :
    ∀ (rs : List ResourceRef) (st : SyncState), (∀ r ∈ rs, o r = .ok) →
    (renderLoop o fp dir line rs st).1 =
      (rs.map fun r => line r (getRelativePath fp (resourceLocalPath r dir))).flatten
  | [], st, _ => rfl
  | r :: rs, st, h => by
    have hr : (downloadResource o r dir st).1 = some (resourceLocalPath r dir) :=
      downloadResource_fst_ok (h r (List.mem_cons_self r rs))
    have ih := renderLoop_ok o fp dir line rs (downloadResource o r dir st).2
      fun x hx => h x (List.mem_cons_of_mem _ hx)
    simp only [renderLoop, hr, List.map_cons, List.flatten_cons]
    rw [ih]

theorem imgSection_fst_ok {o : ResourceRef → NetResult} (s : Settings) (m : Memo)
    (st : SyncState) (hok : ∀ r ∈ imagesOf m, o r = .ok) :
    (imgSection o s m st).1 =
      if imagesOf m = [] then []
      else str "\n\n" ++ ((imagesOf m).map fun r =>
        imageLine r (getRelativePath (memoFilePath s m)
          (resourceLocalPath r (monthDirOf s m)))).flatten := by
  unfold imgSection
  split
  · rfl
  · rw [renderLoop_ok o _ _ _ _ _ hok]

theorem attSection_fst_ok {o : ResourceRef → NetResult} (s : Settings) (m : Memo)
    (st : SyncState) (hok : ∀ r ∈ othersOf m, o r = .ok) :
    (attSection o s m st).1 =
      if othersOf m = [] then []
      else str "\n\n### Attachments\n" ++ ((othersOf m).map fun r =>
        attachLine r (getRelativePath (memoFilePath s m)
          (resourceLocalPath r (monthDirOf s m)))).flatten := by
  unfold attSection
  split
  · rfl
  · rw [renderLoop_ok o _ _ _ _ _ hok]

theorem saveMemo_docBody (o : ResourceRef → NetResult) (s : Settings) (m : Memo)
    (st : SyncState) :
    docBodyAt (saveMemoToFile o s m st) (memoFilePath s m) =
      rewriteTags m.content
      ++ (imgSection o s m (ensureDirectoryExists (monthDirOf s m)
            (ensureDirectoryExists
              (s.syncDirectory ++ '/' :: natToChars m.createTime.year) st))).1
      ++ (attSection o s m (imgSection o s m (ensureDirectoryExists (monthDirOf s m)
            (ensureDirectoryExists
              (s.syncDirectory ++ '/' :: natToChars m.createTime.year) st))).2).1
      ++ metadataBlock m := by
  simp only [saveMemoToFile]
  split
  · rw [docBodyAt_upsert]
  · rw [docBodyAt_upsert]

theorem saveMemo_doc_present (o : ResourceRef → NetResult) (s : Settings) (m : Memo)
    (st : SyncState) :
    ∃ b, (saveMemoToFile o s m st).docs.find?
      (fun e => decide (e.1 = memoFilePath s m)) = some (memoFilePath s m, b) := by
  simp only [saveMemoToFile]
  split
  · exact ⟨_, find_upsertDoc _ _ _⟩
  · exact ⟨_, find_upsertDoc _ _ _⟩

/-! Orchestrated sync. -/

theorem syncMemos_invalid (o : ResourceRef → NetResult) (s : Settings)
    (pages : List (List Memo)) (st : SyncState)
    (h : s.memosApiUrl = [] ∨ s.memosAccessToken = []) :
    (∃ e, (syncMemos o s pages st).1 = Except.error e) ∧
    (syncMemos o s pages st).2 = st := by
  unfold syncMemos
  rcases h with h | h
  · rw [if_pos h]
    exact ⟨⟨.missingUrl, rfl⟩, rfl⟩
  · by_cases h1 : s.memosApiUrl = []
    · rw [if_pos h1]
      exact ⟨⟨.missingUrl, rfl⟩, rfl⟩
    · rw [if_neg h1, if_pos h]
      exact ⟨⟨.missingToken, rfl⟩, rfl⟩

theorem syncMemos_badUrl (o : ResourceRef → NetResult) (s : Settings)
    (pages : List (List Memo)) (st : SyncState)
    (h1 : s.memosApiUrl ≠ []) (h2 : s.memosAccessToken ≠ [])
    (h3 : substrOf apiV1 s.memosApiUrl = false) :
    (syncMemos o s pages st).1 = Except.error .badApiUrl ∧
    netOps (syncMemos o s pages st).2.trace = netOps st.trace := by
  unfold syncMemos
  rw [if_neg h1, if_neg h2, if_pos h3]
  exact ⟨rfl, ensureDir_netOps _ _⟩

theorem syncMemos_count (o : ResourceRef → NetResult) (s : Settings)
    (pages : List (List Memo)) (st : SyncState)
    (h1 : s.memosApiUrl ≠ []) (h2 : s.memosAccessToken ≠ [])
    (h3 : substrOf apiV1 s.memosApiUrl = true) :
    (syncMemos o s pages st).1 =
      Except.ok (fetchAllMemos s.syncLimit pages).length := by
  unfold syncMemos
  rw [if_neg h1, if_neg h2, if_neg (by simp [h3])]

theorem insertionSort_strict {l : List Memo}
    (hdist : l.Pairwise (fun a b => a.createTime.ms ≠ b.createTime.ms)) :
    (List.insertionSort memoLe l).Pairwise
      (fun a b => b.createTime.ms < a.createTime.ms) := by
  have hs : (List.insertionSort memoLe l).Pairwise memoLe :=
    List.sorted_insertionSort memoLe l
  have hd : (List.insertionSort memoLe l).Pairwise
      (fun a b => a.createTime.ms ≠ b.createTime.ms) :=
    ((List.perm_insertionSort memoLe l).pairwise_iff
      (fun h => Ne.symm h)).mpr hdist
  refine (hs.and hd).imp ?_
  intro a b h
  exact lt_of_le_of_ne h.1 fun e => h.2 e.symm

/-! Claim theorems. -/

/-- C1 counterexample: with limit 1 and the same two-record collection
served in the two per-page orders, the returned record differs, so the
fetched total order is not independent of the remote's per-page
ordering (truncation happens before the sort). -/
theorem c1_pagination_counterexample :
    (List.flatten [[memoMs2, memoMs1]]).Perm (List.flatten [[memoMs1, memoMs2]]) ∧
    fetchAllMemos 1 [[memoMs2, memoMs1]] ≠ fetchAllMemos 1 [[memoMs1, memoMs2]] := by
  constructor
  · exact List.Perm.swap _ _ _
  · decide

/-- C1 (amended): for limit L > 0 the fetch returns exactly min(M, L)
records sorted descending by creation time; when all creation
timestamps are pairwise distinct the order is strictly descending; and
when additionally L is at least M (no truncation) the result is the
same for every per-page ordering of the collection.  Under truncation
the selected records depend on arrival order, as the counterexample
shows. -/
theorem c1_pagination_amended : ∀ (limit : Nat) (pages : List (List Memo)), 0 < limit →
    (fetchAllMemos limit pages).length = min pages.flatten.length limit
    ∧ (fetchAllMemos limit pages).Pairwise memoLe
    ∧ (pages.flatten.Pairwise (fun a b => a.createTime.ms ≠ b.createTime.ms) →
        (fetchAllMemos limit pages).Pairwise
          (fun a b => b.createTime.ms < a.createTime.ms))
    ∧ (∀ pages2 : List (List Memo), pages2.flatten.Perm pages.flatten →
        pages.flatten.Pairwise (fun a b => a.createTime.ms ≠ b.createTime.ms) →
        pages.flatten.length ≤ limit →
        fetchAllMemos limit pages2 = fetchAllMemos limit pages) := by
  intro limit pages hl
  have hne : ¬ limit = 0 := by omega
  obtain ⟨l2, hpre⟩ := fetchLoopN_prefix limit pages []
  rw [List.nil_append] at hpre
  have hminle := fetchLoopN_min_le limit pages []
  rw [List.nil_append] at hminle
  have hlen_le : (fetchLoopN limit pages []).1.length ≤ pages.flatten.length := by
    have := congrArg List.length hpre
    simp only [List.length_append] at this
    omega
  refine ⟨?_, ?_, ?_, ?_⟩
  · unfold fetchAllMemos
    rw [if_neg hne, List.length_insertionSort, List.length_take]
    omega
  · unfold fetchAllMemos
    rw [if_neg hne]
    exact List.sorted_insertionSort memoLe _
  · intro hdist
    unfold fetchAllMemos
    rw [if_neg hne]
    apply insertionSort_strict
    have hsub : List.Sublist ((fetchLoopN limit pages []).1.take limit) pages.flatten := by
      refine List.Sublist.trans (List.take_sublist _ _) ?_
      rw [hpre]
      exact List.sublist_append_left _ _
    exact List.Pairwise.sublist hsub hdist
  · intro pages2 hperm hdist hlim
    have key : ∀ pp : List (List Memo), pp.flatten.length ≤ limit →
        fetchAllMemos limit pp = List.insertionSort memoLe pp.flatten := by
      intro pp hpp
      unfold fetchAllMemos
      rw [if_neg hne, fetchLoopN_all limit pp [] (by simpa using hpp)]
      rw [List.nil_append, List.take_of_length_le hpp]
    rw [key pages2 (by rw [hperm.length_eq]; exact hlim), key pages hlim]
    have hdist2 : pages2.flatten.Pairwise
        (fun a b => a.createTime.ms ≠ b.createTime.ms) :=
      (hperm.pairwise_iff (fun h => Ne.symm h)).mpr hdist
    refine pairwise_perm_eq (fun a b h1 h2 => absurd h1 (not_lt.mpr (le_of_lt h2)))
      ?_ (insertionSort_strict hdist2) (insertionSort_strict hdist)
    exact (List.perm_insertionSort _ _).trans
      (hperm.trans (List.perm_insertionSort _ _).symm)

/-- C1 witness: at limit 2 with the two-record collection the fetched
size is min(2, 2) = 2 and the two page splits give the same output. -/
theorem c1_pagination_witness :
    (fetchAllMemos 2 [[memoMs1], [memoMs2]]).length =
      min (List.flatten [[memoMs1], [memoMs2]]).length 2 ∧
    fetchAllMemos 2 [[memoMs2, memoMs1]] = fetchAllMemos 2 [[memoMs1], [memoMs2]] := by
  have h := c1_pagination_amended 2 [[memoMs1], [memoMs2]] (by decide)
  refine ⟨h.1, ?_⟩
  exact h.2.2.2 [[memoMs2, memoMs1]] (List.Perm.swap _ _ _) (by decide) (by decide)

/-- C2 counterexample: in the end-to-end scenario the single document is
written at the path with '#' sanitized to '_', not at the path the
claim states, which keeps the '#' characters. -/
theorem c2_scenario_counterexample :
    scnRun.docs.map Prod.fst = [scnPath] ∧ scnPath ≠ scnClaimedPath := by
  constructor
  · decide
  · decide

/-- C2 (amended): in the end-to-end scenario the single output file is
at {root}/2024/03/Meeting notes _work_ (2024-03-15 10-30).md — the
sanitizer replaces each '#' of the preview by '_' — and its body
contains the text 'Meeting notes #work', the inline image reference
resources/r1_photo.jpg, the tag 'work' and the original record id. -/
theorem c2_scenario_amended :
    scnRun.docs.map Prod.fst = [scnPath] ∧
    substrOf (str "Meeting notes #work") (docBodyAt scnRun scnPath) = true ∧
    substrOf (str "![photo.jpg](resources/r1_photo.jpg)") (docBodyAt scnRun scnPath) = true ∧
    substrOf (str "> - Tags: [work]") (docBodyAt scnRun scnPath) = true ∧
    substrOf (str "> - ID: memos/abc") (docBodyAt scnRun scnPath) = true := by
  refine ⟨by decide, by decide, by decide, by decide, by decide⟩

/-- C3: when the derived local path of a resource already exists in the
store, downloadResource returns it and issues no network request; and a
second run after any successful download issues no network request for
that resource, whatever the second oracle answers. -/
theorem c3_download_idempotent :
    (∀ (o : ResourceRef → NetResult) (res : ResourceRef) (dir : Str) (st : SyncState),
      resourceLocalPath res dir ∈ st.files →
      (downloadResource o res dir st).1 = some (resourceLocalPath res dir) ∧
      netOps (downloadResource o res dir st).2.trace = netOps st.trace)
    ∧ (∀ (o o2 : ResourceRef → NetResult) (res : ResourceRef) (dir : Str)
        (st : SyncState) (p : Str), (downloadResource o res dir st).1 = some p →
      netOps (downloadResource o2 res dir (downloadResource o res dir st).2).2.trace =
        netOps (downloadResource o res dir st).2.trace) :=
  ⟨fun _ _ _ _ h => downloadResource_exists h,
   fun _ _ _ _ _ _ h => downloadResource_second h⟩

/-- C3 witness: with the resource file already present, the call
returns the existing path and the trace gains no network request. -/
theorem c3_download_idempotent_witness :
    (downloadResource oracleAllOk ⟨str "resources/r1", str "photo.jpg"⟩
      (str "memos/2024/03")
      ⟨[str "memos/2024/03/resources/r1_photo.jpg"], [], []⟩).1 =
        some (str "memos/2024/03/resources/r1_photo.jpg") ∧
    netOps (downloadResource oracleAllOk ⟨str "resources/r1", str "photo.jpg"⟩
      (str "memos/2024/03")
      ⟨[str "memos/2024/03/resources/r1_photo.jpg"], [], []⟩).2.trace = netOps [] := by
  have h := c3_download_idempotent.1 oracleAllOk ⟨str "resources/r1", str "photo.jpg"⟩
    (str "memos/2024/03") ⟨[str "memos/2024/03/resources/r1_photo.jpg"], [], []⟩
    (by decide)
  have e : resourceLocalPath ⟨str "resources/r1", str "photo.jpg"⟩ (str "memos/2024/03")
      = str "memos/2024/03/resources/r1_photo.jpg" := by decide
  exact ⟨by rw [← e]; exact h.1, h.2⟩

/-- C4: getRelativePath strips the source file name, counts the longest
common leading segment run, and emits that many '..' segments followed
by the target's remaining segments; on the month-local resource it
yields resources/r1_pic.png, and across months it prefixes the '..'
segments needed to reach the common ancestor. -/
theorem c4_relative_path :
    (∀ fromPath toPath : Str,
      getRelativePath fromPath toPath = getRelativePathSpec fromPath toPath)
    ∧ getRelativePath (str "root/2024/05/note.md")
        (str "root/2024/05/resources/r1_pic.png") = str "resources/r1_pic.png"
    ∧ getRelativePath (str "root/2024/05/note.md")
        (str "root/2024/04/resources/r2.png") = str "../04/resources/r2.png" := by
  refine ⟨?_, by decide, by decide⟩
  intro f t
  simp only [getRelativePath, getRelativePathSpec, longestCommonLen_eq]

/-- C5: the renderer rewrites each delimited occurrence #tag# (tag
nonempty, free of '#' and whitespace) to #tag, dropping only the single
trailing delimiter, and leaves all text outside the matches unchanged;
the scan is the left-to-right non-overlapping scan of the JS global
replace. -/
theorem c5_tag_rewrite :
    (∀ p t s2 : Str, (∀ c ∈ p, c ≠ '#') → (∀ c ∈ t, isTagStop c = false) → t ≠ [] →
      rewriteTags (p ++ '#' :: (t ++ '#' :: s2)) = p ++ '#' :: (t ++ rewriteTags s2))
    ∧ (∀ l : Str, (∀ c ∈ l, c ≠ '#') → rewriteTags l = l) := by
  constructor
  · intro p
    induction p with
    | nil =>
      intro t s2 _ ht htne
      simpa using rewriteTags_match s2 ht htne
    | cons c p ih =>
      intro t s2 hp ht htne
      rw [List.cons_append, rewriteTags_cons_plain (hp c (List.mem_cons_self c p))]
      rw [ih t s2 (fun x hx => hp x (List.mem_cons_of_mem _ hx)) ht htne]
      rfl
  · intro l hl
    induction l with
    | nil => rfl
    | cons c cs ih =>
      rw [rewriteTags_cons_plain (hl c (List.mem_cons_self c cs))]
      rw [ih fun x hx => hl x (List.mem_cons_of_mem _ hx)]

/-- C5 witness: the rewrite turns 'a #project# b' into 'a #project b'. -/
theorem c5_tag_rewrite_witness :
    rewriteTags (str "a #project# b") = str "a #project b" := by
  have h := c5_tag_rewrite.1 (str "a ") (str "project") (str " b")
    (by decide) (by decide) (by decide)
  rw [show str "a #project# b" = str "a " ++ '#' :: (str "project" ++ '#' :: str " b")
    from by decide]
  rw [h]
  decide

/-- C6: a failed fetch (non-2xx or thrown) makes downloadResource
return none instead of propagating; the owning document is still
written for every oracle; a valid run reports a count covering every
fetched record for every oracle; and in the concrete two-image memo
with the first fetch failing, the document exists, links the second
image and contains no reference to the failed one. -/
theorem c6_partial_failure :
    (∀ (o : ResourceRef → NetResult) (res : ResourceRef) (dir : Str) (st : SyncState),
      o res ≠ .ok → resourceLocalPath res dir ∉ st.files →
      (downloadResource o res dir st).1 = none)
    ∧ (∀ (o : ResourceRef → NetResult) (s : Settings) (m : Memo) (st : SyncState),
      ∃ b, (saveMemoToFile o s m st).docs.find?
        (fun e => decide (e.1 = memoFilePath s m)) = some (memoFilePath s m, b))
    ∧ (∀ (o : ResourceRef → NetResult) (s : Settings) (pages : List (List Memo))
        (st : SyncState), s.memosApiUrl ≠ [] → s.memosAccessToken ≠ [] →
        substrOf apiV1 s.memosApiUrl = true →
        (syncMemos o s pages st).1 = Except.ok (fetchAllMemos s.syncLimit pages).length)
    ∧ (runTwoPics.docs.map Prod.fst = [memoFilePath scnSettings memoTwoPics] ∧
       substrOf (str "![b.png](resources/r2_b.png)")
         (docBodyAt runTwoPics (memoFilePath scnSettings memoTwoPics)) = true ∧
       substrOf (str "r1_a.png")
         (docBodyAt runTwoPics (memoFilePath scnSettings memoTwoPics)) = false) := by
  refine ⟨fun o res dir st h1 h2 => downloadResource_fst_fail h1 h2,
    fun o s m st => saveMemo_doc_present o s m st,
    fun o s pages st h1 h2 h3 => syncMemos_count o s pages st h1 h2 h3,
    by decide, by decide, by decide⟩

/-- C6 witness: a failing fetch on a fresh store yields none. -/
theorem c6_partial_failure_witness :
    (downloadResource oracleFailR1 ⟨str "resources/r1", str "a.png"⟩
      (str "memos/2024/03") emptyState).1 = none :=
  c6_partial_failure.1 oracleFailR1 ⟨str "resources/r1", str "a.png"⟩
    (str "memos/2024/03") emptyState (by decide) (by decide)

/-- C7 counterexample: two memos with identical previews whose creation
timestamps differ only in the seconds derive the same file name, since
the suffix is truncated to minute resolution. -/
theorem c7_collision_counterexample :
    memoAtSec0.createTime ≠ memoAtSec45.createTime ∧
    contentPreviewOf memoAtSec0 = contentPreviewOf memoAtSec45 ∧
    memoFileName memoAtSec0 = memoFileName memoAtSec45 := by
  refine ⟨by decide, by decide, by decide⟩

/-- C7 (amended): two memos with identical content previews whose
minute-resolution timestamp suffixes YYYY-MM-DD HH-MM differ derive
distinct file names; timestamps that differ only below the minute can
collide, as the counterexample shows. -/
theorem c7_collision_amended : ∀ m₁ m₂ : Memo,
    contentPreviewOf m₁ = contentPreviewOf m₂ →
    formatDateTimeFile m₁.createTime ≠ formatDateTimeFile m₂.createTime →
    memoFileName m₁ ≠ memoFileName m₂ := by
  intro m₁ m₂ hp ht heq
  rw [memoFileName_eq, memoFileName_eq, hp] at heq
  have h2 := List.append_cancel_left heq
  injection h2 with _ h3
  exact ht (List.append_cancel_right h3)

/-- C7 witness: one minute apart, the file names differ. -/
theorem c7_collision_witness : memoFileName memoAtSec0 ≠ memoFileName memoAtMin31 :=
  c7_collision_amended memoAtSec0 memoAtMin31 (by decide) (by decide)

/-- C8: with every download succeeding, the rendered body is the
rewritten content, then — only if images exist — the inline image
references in order, then — only if other attachments exist — the
labeled Attachments section with their links, then the metadata block;
and a resource is classified as an image exactly when isImageFile
accepts its file name (the dotted last name component). -/
theorem c8_attachment_sections : ∀ (o : ResourceRef → NetResult) (s : Settings)
    (m : Memo) (st : SyncState),
    (∀ r ∈ m.resources, o r = .ok) → m.resources ≠ [] →
    (docBodyAt (saveMemoToFile o s m st) (memoFilePath s m) =
      rewriteTags m.content
      ++ (if imagesOf m = [] then [] else str "\n\n" ++ ((imagesOf m).map fun r =>
            imageLine r (getRelativePath (memoFilePath s m)
              (resourceLocalPath r (monthDirOf s m)))).flatten)
      ++ (if othersOf m = [] then [] else str "\n\n### Attachments\n" ++
            ((othersOf m).map fun r => attachLine r (getRelativePath (memoFilePath s m)
              (resourceLocalPath r (monthDirOf s m)))).flatten)
      ++ metadataBlock m)
    ∧ (∀ r ∈ m.resources, (r ∈ imagesOf m ↔ isImageFile r.filename = true)) := by
  intro o s m st hok hne
  constructor
  · rw [saveMemo_docBody]
    rw [imgSection_fst_ok s m _ (fun r hr => hok r (List.mem_filter.mp hr).1)]
    rw [attSection_fst_ok s m _ (fun r hr => hok r (List.mem_filter.mp hr).1)]
  · intro r hr
    simp [imagesOf, List.mem_filter, hr]

/-- C8 witness: in the mixed memo, pic.png is classified as an image. -/
theorem c8_attachment_sections_witness :
    (⟨str "resources/p1", str "pic.png"⟩ : ResourceRef) ∈ imagesOf memoMixed ↔
      isImageFile (str "pic.png") = true :=
  (c8_attachment_sections oracleAllOk scnSettings memoMixed emptyState
    (by decide) (by decide)).2 ⟨str "resources/p1", str "pic.png"⟩ (by decide)

/-- C9: an empty remote URL or token aborts the run with a
configuration error before any effect, leaving the store untouched; a
base URL lacking the /api/v1 segment aborts with a configuration error
with no network request issued. -/
theorem c9_config_validation :
    (∀ (o : ResourceRef → NetResult) (s : Settings) (pages : List (List Memo))
      (st : SyncState), s.memosApiUrl = [] ∨ s.memosAccessToken = [] →
      (∃ e, (syncMemos o s pages st).1 = Except.error e) ∧
      (syncMemos o s pages st).2 = st)
    ∧ (∀ (o : ResourceRef → NetResult) (s : Settings) (pages : List (List Memo))
      (st : SyncState), s.memosApiUrl ≠ [] → s.memosAccessToken ≠ [] →
      substrOf apiV1 s.memosApiUrl = false →
      (syncMemos o s pages st).1 = Except.error .badApiUrl ∧
      netOps (syncMemos o s pages st).2.trace = netOps st.trace) :=
  ⟨fun o s pages st h => syncMemos_invalid o s pages st h,
   fun o s pages st h1 h2 h3 => syncMemos_badUrl o s pages st h1 h2 h3⟩

/-- C9 witness: an empty URL leaves the empty store untouched with an
error, and a URL without /api/v1 errors out as a bad API URL. -/
theorem c9_config_validation_witness :
    (∃ e, (syncMemos oracleAllOk ⟨[], str "t", str "memos", 10⟩ [] emptyState).1 =
      Except.error e) ∧
    (syncMemos oracleAllOk ⟨[], str "t", str "memos", 10⟩ [] emptyState).2 = emptyState ∧
    (syncMemos oracleAllOk ⟨str "https://h", str "t", str "memos", 10⟩ [] emptyState).1 =
      Except.error .badApiUrl := by
  have h1 := c9_config_validation.1 oracleAllOk ⟨[], str "t", str "memos", 10⟩ []
    emptyState (Or.inl rfl)
  have h2 := c9_config_validation.2 oracleAllOk ⟨str "https://h", str "t", str "memos", 10⟩
    [] emptyState (by decide) (by decide) (by decide)
  exact ⟨h1.1, h1.2, h2.1⟩

/-- C10: sanitizeFileName is idempotent, so the second sanitization of
the assembled file name leaves the already-sanitized preview intact. -/
theorem c10_sanitize_idempotent : ∀ l : Str,
    sanitizeFileName (sanitizeFileName l) = sanitizeFileName l :=
  fun l => sanitize_of_clean (cleanStr_sanitize l)

end MemosSync
